import Mathlib

/-!
Verification development for the primary-key index and snapshot subsystem of
a mutable columnar storage engine (StarRocks backend), plus its timezone
lookup utility.

The repository ships only the interface headers for `PrimaryIndex`
(`be/src/storage/primary_index.h`) and `SnapshotMeta`
(`be/src/storage/snapshot_meta.h`); their member-function bodies are not part
of the source tree given here.  Those operations are therefore modelled from
the specification (each such definition carries a doc comment starting with
`Modelled from the spec:`).  The timezone utility
(`be/src/util/timezone_utils.cpp`) is present in full and is embedded
directly from its source.
-/

namespace PrimaryIndexModel

/-- Modelled from the spec: an encoded primary key.  The spec treats keys as
opaque comparable byte sequences produced by the key codec; we model them as
natural numbers, keeping only what the index needs, namely decidable
equality. -/
abbrev PKey := Nat

/-- A physical row position: segment id (`rssid`) and row offset within the
segment, mirroring the (uint32 segment id, uint32 row offset) pair of the
header. -/
structure RowLocation where
  rssid : Nat
  rowid : Nat
deriving DecidableEq

/-- Modelled from the spec: the key-to-location map owned by a
`PrimaryIndex`, as an association list with at most one entry per key. -/
abbrev IndexMap := List (PKey × RowLocation)

/-- Lookup of a key in the index map (first matching entry). -/
def indexGet (m : IndexMap) (k : PKey) : Option RowLocation :=
  match m with
  | [] => none
  | (k1, loc) :: rest => if k1 = k then some loc else indexGet rest k

/-- Overwrite the value stored for a key that is already present (first
matching entry). -/
def indexUpdate (m : IndexMap) (k : PKey) (loc : RowLocation) : IndexMap :=
  match m with
  | [] => []
  | (k1, loc1) :: rest =>
      if k1 = k then (k1, loc) :: rest else (k1, loc1) :: indexUpdate rest k loc

/-- Remove the entry of a key from the index map (first matching entry). -/
def indexErase (m : IndexMap) (k : PKey) : IndexMap :=
  match m with
  | [] => []
  | (k1, loc1) :: rest =>
      if k1 = k then rest else (k1, loc1) :: indexErase rest k

/-- `DeletesMap` of the header: segment id mapped to the ordered list of row
offsets retired within the current call, as an association list. -/
abbrev DeletesMap := List (Nat × List Nat)

/-- Append a retired row offset under its segment id, creating the segment
entry when absent (matching `(*deletes)[rssid].push_back(rowid)`). -/
def deletesAdd (d : DeletesMap) (rssid rowid : Nat) : DeletesMap :=
  match d with
  | [] => [(rssid, [rowid])]
  | (s, rs) :: rest =>
      if s = rssid then (s, rs ++ [rowid]) :: rest
      else (s, rs) :: deletesAdd rest rssid rowid

/-- The row offsets recorded for one segment id in a `DeletesMap`. -/
def deletesGet (d : DeletesMap) (rssid : Nat) : List Nat :=
  match d with
  | [] => []
  | (s, rs) :: rest => if s = rssid then rs else deletesGet rest rssid

/-- Total number of retired row offsets recorded in a `DeletesMap`. -/
def deletesSize (d : DeletesMap) : Nat :=
  (d.map (fun p => p.2.length)).sum

/-- Modelled from the spec: `PrimaryIndex::upsert(rssid, rowid_start, pks,
deletes)`, whose body is absent from the tree.  For each key in order: if
present, the key's current location is appended to `deletes` under that
location's segment id and the mapping is overwritten with the new location
`(rssid, rowid_start + i)`; if absent, the key is inserted fresh. -/
def upsert (rssid rowid : Nat) (keys : List PKey) (m : IndexMap) (d : DeletesMap) :
    IndexMap × DeletesMap :=
  match keys with
  | [] => (m, d)
  | k :: ks =>
      match indexGet m k with
      | some old =>
          upsert rssid (rowid + 1) ks (indexUpdate m k ⟨rssid, rowid⟩)
            (deletesAdd d old.rssid old.rowid)
      | none => upsert rssid (rowid + 1) ks (m ++ [(k, ⟨rssid, rowid⟩)]) d

/-- Modelled from the spec: `PrimaryIndex::try_replace(rssid, rowid_start,
pks, source_segments, failed)`, whose body is absent from the tree.  For each
key in order: if the key's current location's segment id is a member of
`srcs`, the entry is repointed to `(rssid, rowid_start + i)`; otherwise the
output row offset `rowid_start + i` is appended to `failed` and the entry is
left unchanged.  The call itself always completes. -/
def tryReplace (rssid rowid : Nat) (keys : List PKey) (srcs : List Nat)
    (m : IndexMap) (failed : List Nat) : IndexMap × List Nat :=
  match keys with
  | [] => (m, failed)
  | k :: ks =>
      match indexGet m k with
      | some old =>
          if old.rssid ∈ srcs then
            tryReplace rssid (rowid + 1) ks srcs (indexUpdate m k ⟨rssid, rowid⟩) failed
          else
            tryReplace rssid (rowid + 1) ks srcs m (failed ++ [rowid])
      | none => tryReplace rssid (rowid + 1) ks srcs m (failed ++ [rowid])

/-- Modelled from the spec: `PrimaryIndex::erase(pks, deletes)`, whose body
is absent from the tree.  Each present key is removed from the map and its
prior location appended to `deletes`; an absent key is a no-op. -/
def erase (keys : List PKey) (m : IndexMap) (d : DeletesMap) :
    IndexMap × DeletesMap :=
  match keys with
  | [] => (m, d)
  | k :: ks =>
      match indexGet m k with
      | some old => erase ks (indexErase m k) (deletesAdd d old.rssid old.rowid)
      | none => erase ks m d

/-- Modelled from the spec: `PrimaryIndex::get(pks, rowids)` produces, per
key, the key's location or a not-found sentinel; never a call failure.  We
model the per-key result as an `Option RowLocation`, `none` being the
sentinel. -/
def primGet (m : IndexMap) (keys : List PKey) : List (Option RowLocation) :=
  keys.map (indexGet m)

/-- One immutable segment as `load` sees it: its segment id, the decoded key
of each row in offset order (`none` marks a key-decode failure), and the
offsets already marked deleted in the segment's delete vector. -/
structure Segment where
  rssid : Nat
  rows : List (Option PKey)
  delvec : List Nat
deriving DecidableEq

/-- One committed rowset: its metadata readability flag and its segments. -/
structure Rowset where
  metaOk : Bool
  segments : List Segment
deriving DecidableEq

/-- The storage-side input of `load`: the committed rowsets in rowset order. -/
structure Tablet where
  rowsets : List Rowset
deriving DecidableEq

/-- Status outcomes of `PrimaryIndex::load`. -/
inductive Status
| OK
| IndexLoadError
deriving DecidableEq

/-- Modelled from the spec: the row scan of one segment during `_do_load`.
Rows are visited in offset order; a key-decode failure aborts the scan; a row
whose offset is already marked deleted in the segment's delete vector is
skipped; every other row's key is inserted mapping to (segment, offset). -/
def loadSegmentRows (rssid rowid : Nat) (rows : List (Option PKey))
    (delvec : List Nat) (m : IndexMap) : Except Unit IndexMap :=
  match rows with
  | [] => .ok m
  | none :: _ => .error ()
  | some k :: rest =>
      if rowid ∈ delvec then loadSegmentRows rssid (rowid + 1) rest delvec m
      else loadSegmentRows rssid (rowid + 1) rest delvec (m ++ [(k, ⟨rssid, rowid⟩)])

/-- Modelled from the spec: scan of the segments of one rowset, in order. -/
def loadSegments (segs : List Segment) (m : IndexMap) : Except Unit IndexMap :=
  match segs with
  | [] => .ok m
  | s :: rest =>
      match loadSegmentRows s.rssid 0 s.rows s.delvec m with
      | .ok m1 => loadSegments rest m1
      | .error e => .error e

/-- Modelled from the spec: scan of all committed rowsets in rowset order;
an unreadable rowset metadata aborts the scan. -/
def loadRowsets (rss : List Rowset) (m : IndexMap) : Except Unit IndexMap :=
  match rss with
  | [] => .ok m
  | r :: rest =>
      if r.metaOk then
        match loadSegments r.segments m with
        | .ok m1 => loadRowsets rest m1
        | .error e => .error e
      else .error ()

/-- The observable state of a `PrimaryIndex`: the loaded flag, the cached
status and the key-to-location map (`_loaded`, `_status`,
`_pkey_to_rssid_rowid` of the header). -/
structure PrimaryIndex where
  loaded : Bool
  status : Status
  map : IndexMap
deriving DecidableEq

/-- A freshly constructed `PrimaryIndex`: unloaded and empty. -/
def emptyIndex : PrimaryIndex := ⟨false, .OK, []⟩

/-- Modelled from the spec: `PrimaryIndex::load(tablet)`.  While already
loaded the call is a no-op returning the cached status; otherwise `_do_load`
scans the tablet: on success the map is installed and the loaded flag set
atomically, on failure the index is left unloaded with no partial mapping
visible and an `IndexLoadError` status. -/
def load (p : PrimaryIndex) (t : Tablet) : PrimaryIndex × Status :=
  if p.loaded then (p, p.status)
  else
    match loadRowsets t.rowsets [] with
    | .ok m => (⟨true, .OK, m⟩, .OK)
    | .error _ => (⟨false, .IndexLoadError, []⟩, .IndexLoadError)

/-- Modelled from the spec: `PrimaryIndex::unload()` clears the map and
resets the loaded flag. -/
def unload (p : PrimaryIndex) : PrimaryIndex := ⟨false, p.status, []⟩

/-- The (key, location) pairs a successful scan of one segment records, in
offset order, skipping rows marked deleted in the delete vector. -/
def segmentEntries (rssid rowid : Nat) (rows : List (Option PKey))
    (delvec : List Nat) : List (PKey × RowLocation) :=
  match rows with
  | [] => []
  | none :: rest => segmentEntries rssid (rowid + 1) rest delvec
  | some k :: rest =>
      if rowid ∈ delvec then segmentEntries rssid (rowid + 1) rest delvec
      else (k, ⟨rssid, rowid⟩) :: segmentEntries rssid (rowid + 1) rest delvec

/-- All (key, location) pairs recorded in storage for the tablet's live rows,
in scan order. -/
def tabletEntries (t : Tablet) : List (PKey × RowLocation) :=
  (t.rowsets.map
    (fun r => (r.segments.map
      (fun s => segmentEntries s.rssid 0 s.rows s.delvec)).flatten)).flatten

/-- A tablet input on which `load` must fail: some rowset's metadata is
unreadable, or some row's key fails to decode. -/
def tabletBad (t : Tablet) : Prop :=
  (∃ r ∈ t.rowsets, r.metaOk = false) ∨
    (∃ r ∈ t.rowsets, ∃ s ∈ r.segments, none ∈ s.rows)

/-- Whether `tryReplace` repoints this key: it is present and its current
location's segment id is among the source segments. -/
def replaceOk (m : IndexMap) (srcs : List Nat) (k : PKey) : Bool :=
  match indexGet m k with
  | some old => old.rssid ∈ srcs
  | none => false

/-- The output row offsets that one `tryReplace` call starting at offset
`rowid` appends to `failed`, per the spec: the offset `rowid_start + i` of
every key that is absent or whose current segment is not a source segment. -/
def expectedFailed (m : IndexMap) (srcs : List Nat) (rowid : Nat) :
    List PKey → List Nat
  | [] => []
  | k :: ks =>
      if replaceOk m srcs k then expectedFailed m srcs (rowid + 1) ks
      else rowid :: expectedFailed m srcs (rowid + 1) ks

end PrimaryIndexModel

namespace SnapshotModel

/-- The snapshot type enum of `snapshot.pb.h`, with
`SNAPSHOT_TYPE_UNKNOWN` as the sentinel default of the header. -/
inductive SnapshotTypePB
| SNAPSHOT_TYPE_UNKNOWN
| SNAPSHOT_TYPE_FULL
| SNAPSHOT_TYPE_INCREMENTAL
deriving DecidableEq

/-- Wire value of a snapshot type. -/
def SnapshotTypePB.toInt : SnapshotTypePB → Int
  | .SNAPSHOT_TYPE_UNKNOWN => 0
  | .SNAPSHOT_TYPE_FULL => 1
  | .SNAPSHOT_TYPE_INCREMENTAL => 2

/-- Decode of a snapshot type wire value. -/
def SnapshotTypePB.ofInt (n : Int) : Option SnapshotTypePB :=
  if n = 0 then some .SNAPSHOT_TYPE_UNKNOWN
  else if n = 1 then some .SNAPSHOT_TYPE_FULL
  else if n = 2 then some .SNAPSHOT_TYPE_INCREMENTAL
  else none

/-- Modelled from the spec: a tablet metadata record, opaque to the snapshot
layer; we keep its serialized content as a list of integers. -/
abbrev TabletMetaPB := List Int

/-- Modelled from the spec: one rowset metadata record, opaque content. -/
abbrev RowsetMetaPB := List Int

/-- Modelled from the spec: one per-segment delete vector (bitmap content),
opaque to the snapshot layer. -/
abbrev DelVector := List Int

/-- The fields of `SnapshotMeta` (`be/src/storage/snapshot_meta.h`): snapshot
type, format version (int32), snapshot version (int64), tablet metadata,
rowset metadata list, and the segment-id-to-delete-vector map (as an
association list). -/
structure SnapshotMeta where
  snapshot_type : SnapshotTypePB
  format_version : Int
  snapshot_version : Int
  tablet_meta : TabletMetaPB
  rowset_metas : List RowsetMetaPB
  delete_vectors : List (Nat × DelVector)
deriving DecidableEq

/-- A default-constructed `SnapshotMeta`, with the member initializers of the
header: type `SNAPSHOT_TYPE_UNKNOWN`, format version `-1`, snapshot version
`-1`, and empty tablet metadata, rowset list and delete-vector map. -/
def defaultSnapshotMeta : SnapshotMeta :=
  ⟨.SNAPSHOT_TYPE_UNKNOWN, -1, -1, [], [], []⟩

/-- Failure modes of the snapshot stream operations. -/
inductive SnapErr
| SerializationError
| DataCorruption
deriving DecidableEq

/-- A length-prefixed opaque record on the wire. -/
def encodeBlob (b : List Int) : List Int := (b.length : Int) :: b

/-- A count-prefixed sequence of length-prefixed records on the wire. -/
def encodeBlobList (bs : List (List Int)) : List Int :=
  (bs.length : Int) :: (bs.map encodeBlob).flatten

/-- One (segment id, delete vector) pair on the wire. -/
def encodeDelVec (p : Nat × DelVector) : List Int :=
  (p.1 : Int) :: encodeBlob p.2

/-- The count-prefixed delete-vector section of the wire stream. -/
def encodeDelVecs (ds : List (Nat × DelVector)) : List Int :=
  (ds.length : Int) :: (ds.map encodeDelVec).flatten

/-- Modelled from the spec: `SnapshotMeta::serialize_to_file`, whose body is
absent from the tree.  A snapshot whose format version or snapshot version
still holds the sentinel `-1` must not be serialized and fails with a
`SerializationError`, producing no output stream.  Otherwise the stream holds,
in order: snapshot type, format version, snapshot version, tablet metadata,
the length-prefixed rowset metadata list, and the length-prefixed
delete-vector map. -/
def serialize_to_file (x : SnapshotMeta) : Except SnapErr (List Int) :=
  if x.format_version = -1 ∨ x.snapshot_version = -1 then
    .error .SerializationError
  else
    .ok (x.snapshot_type.toInt :: x.format_version :: x.snapshot_version ::
      (encodeBlob x.tablet_meta ++ encodeBlobList x.rowset_metas ++
        encodeDelVecs x.delete_vectors))

/-- Read exactly `n` wire words, failing on truncation. -/
def readN : Nat → List Int → Except SnapErr (List Int × List Int)
  | 0, s => .ok ([], s)
  | _ + 1, [] => .error .DataCorruption
  | n + 1, x :: s =>
      match readN n s with
      | .ok (xs, rest) => .ok (x :: xs, rest)
      | .error e => .error e

/-- Read one length-prefixed record, failing on a negative length or
truncation. -/
def readBlob (s : List Int) : Except SnapErr (List Int × List Int) :=
  match s with
  | [] => .error .DataCorruption
  | n :: rest => if n < 0 then .error .DataCorruption else readN n.toNat rest

/-- Read a given number of length-prefixed records. -/
def readBlobs : Nat → List Int → Except SnapErr (List (List Int) × List Int)
  | 0, s => .ok ([], s)
  | n + 1, s =>
      match readBlob s with
      | .ok (b, rest) =>
          match readBlobs n rest with
          | .ok (bs, rest1) => .ok (b :: bs, rest1)
          | .error e => .error e
      | .error e => .error e

/-- Read one (segment id, delete vector) pair. -/
def readDelVec (s : List Int) : Except SnapErr ((Nat × DelVector) × List Int) :=
  match s with
  | [] => .error .DataCorruption
  | v :: rest =>
      if v < 0 then .error .DataCorruption
      else
        match readBlob rest with
        | .ok (b, rest1) => .ok ((v.toNat, b), rest1)
        | .error e => .error e

/-- Read a given number of (segment id, delete vector) pairs. -/
def readDelVecs : Nat → List Int → Except SnapErr (List (Nat × DelVector) × List Int)
  | 0, s => .ok ([], s)
  | n + 1, s =>
      match readDelVec s with
      | .ok (p, rest) =>
          match readDelVecs n rest with
          | .ok (ps, rest1) => .ok (p :: ps, rest1)
          | .error e => .error e
      | .error e => .error e

/-- Modelled from the spec: `SnapshotMeta::parse_from_file`, whose body is
absent from the tree.  Reads the stream fields in serialization order and
reconstructs every field, failing with `DataCorruption` when the stream is
truncated or a declared count or length cannot be honoured. -/
def parse_from_file (s : List Int) : Except SnapErr SnapshotMeta :=
  match s with
  | t :: f :: v :: rest =>
      match SnapshotTypePB.ofInt t with
      | none => .error .DataCorruption
      | some ty =>
          match readBlob rest with
          | .error e => .error e
          | .ok (tm, r1) =>
              match r1 with
              | [] => .error .DataCorruption
              | nrs :: r2 =>
                  if nrs < 0 then .error .DataCorruption
                  else
                    match readBlobs nrs.toNat r2 with
                    | .error e => .error e
                    | .ok (rms, r3) =>
                        match r3 with
                        | [] => .error .DataCorruption
                        | ndv :: r4 =>
                            if ndv < 0 then .error .DataCorruption
                            else
                              match readDelVecs ndv.toNat r4 with
                              | .error e => .error e
                              | .ok (dvs, _) => .ok ⟨ty, f, v, tm, rms, dvs⟩
  | _ => .error .DataCorruption

end SnapshotModel

namespace TimezoneModel

/-- Numeric value of a decimal digit character, as `std::stoi` sees one
digit. -/
def digitVal (c : Char) : Nat := c.toNat - '0'.toNat

/-- `std::stoi` applied to a two-digit substring. -/
def twoDigit (a b : Char) : Nat := 10 * digitVal a + digitVal b

/-- The offset pattern of `TimezoneUtils::time_zone_offset_format_reg`:
a sign, two digits, a colon, two digits, anchored at both ends. -/
def matchesOffsetFormat : List Char → Bool
  | [sg, d1, d2, c, d3, d4] =>
      (sg == '+' || sg == '-') && d1.isDigit && d2.isDigit && (c == ':') &&
        d3.isDigit && d4.isDigit
  | _ => false

/-- Outcome of `TimezoneUtils::find_cctz_time_zone`: the function returns
true having set `ctz` to a fixed-offset time zone (`fixedTz`, offset in
seconds), returns false (`notFound`), or delegates to
`cctz::load_time_zone` on the named zone (`loadTz`). -/
inductive TzResult
| fixedTz (offsetSeconds : Int)
| notFound
| loadTz (name : List Char)
deriving DecidableEq

/-- The non-regex fallback of `find_cctz_time_zone`: the exact string "CST"
yields the fixed +08:00 zone, anything else is handed to
`cctz::load_time_zone`. -/
def tzFallback (tz : List Char) : TzResult :=
  if tz = ['C', 'S', 'T'] then .fixedTz (8 * 60 * 60) else .loadTz tz

/-- Embedding of `TimezoneUtils::find_cctz_time_zone(timezone, ctz)` from
`be/src/util/timezone_utils.cpp`: when the string matches the offset regex,
the hour is range-checked (`hour > 12` for negative offsets, `hour > 14` for
positive ones, returning false) and otherwise the fixed zone of
`sign * (hour * 3600 + minute * 60)` seconds is produced; otherwise "CST"
maps to the fixed +08:00 zone and any other string goes to
`cctz::load_time_zone`. -/
def find_cctz_time_zone (tz : List Char) : TzResult :=
  match tz with
  | [sg, d1, d2, c, d3, d4] =>
      if (sg == '+' || sg == '-') && d1.isDigit && d2.isDigit && (c == ':') &&
          d3.isDigit && d4.isDigit then
        let positive := sg ≠ '-'
        let hour := twoDigit d1 d2
        let minute := twoDigit d3 d4
        if ¬positive ∧ hour > 12 then .notFound
        else if positive ∧ hour > 14 then .notFound
        else
          .fixedTz ((if positive then (1 : Int) else -1) *
            ((hour : Int) * 3600 + (minute : Int) * 60))
      else tzFallback tz
  | _ => tzFallback tz

end TimezoneModel

namespace PrimaryIndexModel

/-- Updating a present key makes its lookup return the new location. -/
theorem indexGet_update_self (m : IndexMap) (k : PKey) (loc old : RowLocation)
    (h : indexGet m k = some old) :
    indexGet (indexUpdate m k loc) k = some loc := by
  induction m with
  | nil => simp [indexGet] at h
  | cons hd tl ih =>
      obtain ⟨k1, loc1⟩ := hd
      by_cases hk : k1 = k
      · simp [indexGet, indexUpdate, hk]
      · simp [indexGet, indexUpdate, hk] at h ⊢
        exact ih h

/-- Updating one key leaves lookups of every other key unchanged. -/
theorem indexGet_update_ne (m : IndexMap) (k k1 : PKey) (loc : RowLocation)
    (h : k1 ≠ k) :
    indexGet (indexUpdate m k loc) k1 = indexGet m k1 := by
  induction m with
  | nil => simp [indexUpdate]
  | cons hd tl ih =>
      obtain ⟨k2, loc2⟩ := hd
      by_cases hk : k2 = k
      · subst hk
        have hne : ¬(k2 = k1) := fun hc => h hc.symm
        simp [indexUpdate, indexGet, hne]
      · simp only [indexUpdate, if_neg hk, indexGet]
        by_cases hk1 : k2 = k1
        · simp [hk1]
        · simp [hk1, ih]

/-- A key found in a map is still found, with the same value, after any
append on the right. -/
theorem indexGet_append_some (m l : IndexMap) (k : PKey) (v : RowLocation)
    (h : indexGet m k = some v) :
    indexGet (m ++ l) k = some v := by
  induction m with
  | nil => simp [indexGet] at h
  | cons hd tl ih =>
      obtain ⟨k1, loc1⟩ := hd
      by_cases hk : k1 = k
      · simpa [indexGet, hk] using h
      · simp only [indexGet, if_neg hk] at h
        simpa [indexGet, hk] using ih h

/-- Looking up a key absent from the left part of an append falls through to
the right part. -/
theorem indexGet_append_none (m l : IndexMap) (k : PKey)
    (h : indexGet m k = none) :
    indexGet (m ++ l) k = indexGet l k := by
  induction m with
  | nil => simp
  | cons hd tl ih =>
      obtain ⟨k1, loc1⟩ := hd
      by_cases hk : k1 = k
      · simp [indexGet, hk] at h
      · simp only [indexGet, if_neg hk] at h
        simpa [indexGet, hk] using ih h

/-- Appending an entry for another key does not change a lookup. -/
theorem indexGet_snoc_ne (m : IndexMap) (k k1 : PKey) (loc : RowLocation)
    (h : k1 ≠ k) :
    indexGet (m ++ [(k, loc)]) k1 = indexGet m k1 := by
  cases hm : indexGet m k1 with
  | some v => exact indexGet_append_some m _ k1 v hm
  | none =>
      rw [indexGet_append_none m _ k1 hm]
      have hne : ¬(k = k1) := fun hc => h hc.symm
      simp [indexGet, hne]

/-- The offsets recorded under a segment after `deletesAdd` on that segment:
the new offset is appended at the end. -/
theorem deletesGet_add_self (d : DeletesMap) (s r : Nat) :
    deletesGet (deletesAdd d s r) s = deletesGet d s ++ [r] := by
  induction d with
  | nil => simp [deletesAdd, deletesGet]
  | cons hd tl ih =>
      obtain ⟨s1, rs1⟩ := hd
      by_cases hs : s1 = s
      · simp [deletesAdd, deletesGet, hs]
      · simp [deletesAdd, deletesGet, hs, ih]

/-- `deletesAdd` for one segment does not change the offsets recorded under
another. -/
theorem deletesGet_add_ne (d : DeletesMap) (s s1 r : Nat) (h : s1 ≠ s) :
    deletesGet (deletesAdd d s r) s1 = deletesGet d s1 := by
  induction d with
  | nil =>
      have hne : ¬(s = s1) := fun hc => h hc.symm
      simp [deletesAdd, deletesGet, hne]
  | cons hd tl ih =>
      obtain ⟨s2, rs2⟩ := hd
      by_cases hs : s2 = s
      · subst hs
        have hne : ¬(s2 = s1) := fun hc => h hc.symm
        simp [deletesAdd, deletesGet, hne]
      · simp only [deletesAdd, if_neg hs, deletesGet]
        by_cases hs1 : s2 = s1
        · simp [hs1]
        · simp [hs1, ih]

/-- An offset already recorded in a `DeletesMap` survives any further
`deletesAdd`. -/
theorem mem_deletesGet_add (d : DeletesMap) (s s1 r r1 : Nat)
    (h : r1 ∈ deletesGet d s1) :
    r1 ∈ deletesGet (deletesAdd d s r) s1 := by
  by_cases hs : s1 = s
  · subst hs
    rw [deletesGet_add_self]
    exact List.mem_append_left _ h
  · rwa [deletesGet_add_ne d s s1 r hs]

/-- The offset just added by `deletesAdd` is recorded under its segment. -/
theorem self_mem_deletesGet_add (d : DeletesMap) (s r : Nat) :
    r ∈ deletesGet (deletesAdd d s r) s := by
  rw [deletesGet_add_self]
  exact List.mem_append_right _ (List.mem_singleton.mpr rfl)

/-- `deletesAdd` grows the total number of recorded offsets by exactly one. -/
theorem deletesSize_add (d : DeletesMap) (s r : Nat) :
    deletesSize (deletesAdd d s r) = deletesSize d + 1 := by
  induction d with
  | nil => simp [deletesAdd, deletesSize]
  | cons hd tl ih =>
      obtain ⟨s1, rs1⟩ := hd
      by_cases hs : s1 = s
      · simp [deletesAdd, deletesSize, hs]
        omega
      · simp [deletesAdd, deletesSize, hs] at ih ⊢
        omega

/-- `upsert` over a batch not containing a key leaves that key's lookup
unchanged. -/
theorem upsert_get_notMem (ks : List PKey) (m : IndexMap) (d : DeletesMap)
    (rssid rowid : Nat) (k : PKey) (hk : k ∉ ks) :
    indexGet (upsert rssid rowid ks m d).1 k = indexGet m k := by
  induction ks generalizing m d rowid with
  | nil => simp [upsert]
  | cons k1 tl ih =>
      have hne : k ≠ k1 := fun hc => hk (hc ▸ List.mem_cons_self k1 tl)
      have htl : k ∉ tl := fun hc => hk (List.mem_cons_of_mem k1 hc)
      cases hg : indexGet m k1 with
      | some old =>
          simp only [upsert, hg]
          rw [ih _ _ _ htl, indexGet_update_ne m k1 k _ hne]
      | none =>
          simp only [upsert, hg]
          rw [ih _ _ _ htl, indexGet_snoc_ne m k1 k _ hne]

/-- Offsets recorded in the deletes map survive an `upsert`. -/
theorem upsert_deletes_mono (ks : List PKey) (m : IndexMap) (d : DeletesMap)
    (rssid rowid s r : Nat) (h : r ∈ deletesGet d s) :
    r ∈ deletesGet (upsert rssid rowid ks m d).2 s := by
  induction ks generalizing m d rowid with
  | nil => simpa [upsert] using h
  | cons k1 tl ih =>
      cases hg : indexGet m k1 with
      | some old =>
          simp only [upsert, hg]
          exact ih _ _ _ (mem_deletesGet_add d _ s _ r h)
      | none =>
          simp only [upsert, hg]
          exact ih _ _ _ h

end PrimaryIndexModel

namespace PrimaryIndexModel

/-- After a duplicate-free `upsert` batch, each given key maps to its new
location `(rssid, rowid_start + i)`. -/
theorem upsert_get_batch (keys : List PKey) (m : IndexMap) (d : DeletesMap)
    (rssid rowid : Nat) (hk : keys.Nodup) :
    ∀ i (hi : i < keys.length),
      indexGet (upsert rssid rowid keys m d).1 keys[i] = some ⟨rssid, rowid + i⟩ := by
  induction keys generalizing m d rowid with
  | nil =>
      intro i hi
      exact absurd hi (by simp)
  | cons k1 tl ih =>
      obtain ⟨hk1, htl⟩ := List.nodup_cons.mp hk
      intro i hi
      cases i with
      | zero =>
          simp only [List.getElem_cons_zero, Nat.add_zero]
          cases hg : indexGet m k1 with
          | some old =>
              simp only [upsert, hg]
              rw [upsert_get_notMem tl _ _ _ _ k1 hk1]
              exact indexGet_update_self m k1 _ old hg
          | none =>
              simp only [upsert, hg]
              rw [upsert_get_notMem tl _ _ _ _ k1 hk1]
              rw [indexGet_append_none m _ k1 hg]
              simp [indexGet]
      | succ j =>
          have hj : j < tl.length := by simpa using hi
          have harith : rowid + 1 + j = rowid + (j + 1) := by omega
          simp only [List.getElem_cons_succ]
          cases hg : indexGet m k1 with
          | some old =>
              simp only [upsert, hg]
              rw [ih _ _ _ htl j hj, harith]
          | none =>
              simp only [upsert, hg]
              rw [ih _ _ _ htl j hj, harith]

/-- After a duplicate-free `upsert` batch, the prior location of each key
that was present is recorded in the deletes map under its old segment id. -/
theorem upsert_deletes_batch (keys : List PKey) (m : IndexMap) (d : DeletesMap)
    (rssid rowid : Nat) (hk : keys.Nodup) :
    ∀ i (hi : i < keys.length), ∀ old, indexGet m keys[i] = some old →
      old.rowid ∈ deletesGet (upsert rssid rowid keys m d).2 old.rssid := by
  induction keys generalizing m d rowid with
  | nil =>
      intro i hi
      exact absurd hi (by simp)
  | cons k1 tl ih =>
      obtain ⟨hk1, htl⟩ := List.nodup_cons.mp hk
      intro i hi old hold
      cases i with
      | zero =>
          simp only [List.getElem_cons_zero] at hold
          simp only [upsert, hold]
          exact upsert_deletes_mono tl _ _ _ _ _ _
            (self_mem_deletesGet_add d old.rssid old.rowid)
      | succ j =>
          have hj : j < tl.length := by simpa using hi
          simp only [List.getElem_cons_succ] at hold ⊢
          have hne : tl[j] ≠ k1 := by
            intro hc
            exact hk1 (hc ▸ List.getElem_mem hj)
          cases hg : indexGet m k1 with
          | some o1 =>
              simp only [upsert, hg]
              refine ih _ _ _ htl j hj old ?_
              rw [indexGet_update_ne m k1 _ _ hne]
              exact hold
          | none =>
              simp only [upsert, hg]
              refine ih _ _ _ htl j hj old ?_
              rw [indexGet_snoc_ne m k1 _ _ hne]
              exact hold

/-- `upsert` adds exactly one deletes entry per key of a duplicate-free
batch that was already present, and none for an absent key. -/
theorem upsert_deletes_size (keys : List PKey) (m : IndexMap) (d : DeletesMap)
    (rssid rowid : Nat) (hk : keys.Nodup) :
    deletesSize (upsert rssid rowid keys m d).2 =
      deletesSize d + keys.countP (fun k => (indexGet m k).isSome) := by
  induction keys generalizing m d rowid with
  | nil => simp [upsert]
  | cons k1 tl ih =>
      obtain ⟨hk1, htl⟩ := List.nodup_cons.mp hk
      have hcount : ∀ (m1 : IndexMap), (∀ k ∈ tl, indexGet m1 k = indexGet m k) →
          tl.countP (fun k => (indexGet m1 k).isSome) =
            tl.countP (fun k => (indexGet m k).isSome) :=
        fun m1 hsame => List.countP_congr (fun a ha => by rw [hsame a ha])
      cases hg : indexGet m k1 with
      | some old =>
          simp only [upsert, hg]
          rw [ih _ _ _ htl, deletesSize_add]
          rw [hcount _ (fun k hmem =>
            indexGet_update_ne m k1 k _ (fun hc => hk1 (hc ▸ hmem)))]
          rw [List.countP_cons_of_pos _ _ (by simp [hg])]
          omega
      | none =>
          simp only [upsert, hg]
          rw [ih _ _ _ htl]
          rw [hcount _ (fun k hmem =>
            indexGet_snoc_ne m k1 k _ (fun hc => hk1 (hc ▸ hmem)))]
          rw [List.countP_cons_of_neg _ _ (by simp [hg])]

/-- C1: for every key of a duplicate-free batch given to `upsert`: a present
key has its current location appended to the deletes map under that
location's segment id and is remapped to `(segment, row_offset_start + i)`;
an absent key is inserted fresh and contributes nothing to the deletes map
(the deletes map grows by exactly one offset per present key and none for an
absent one).  In particular, with a key mapped to location (5,1), upsert of
that key at (6,0) makes `get` return (6,0) and yields a deletes map equal to
segment 5 mapped to the offset list of just 1. -/
theorem upsert_spec (m : IndexMap) (d : DeletesMap) (rssid rowid : Nat)
    (keys : List PKey) (hk : keys.Nodup) :
    (∀ i (hi : i < keys.length),
        indexGet (upsert rssid rowid keys m d).1 keys[i] = some ⟨rssid, rowid + i⟩) ∧
    (∀ i (hi : i < keys.length), ∀ old, indexGet m keys[i] = some old →
        old.rowid ∈ deletesGet (upsert rssid rowid keys m d).2 old.rssid) ∧
    deletesSize (upsert rssid rowid keys m d).2 =
      deletesSize d + keys.countP (fun k => (indexGet m k).isSome) ∧
    upsert 6 0 [7] [(7, ⟨5, 1⟩)] [] = ([(7, ⟨6, 0⟩)], [(5, [1])]) :=
  ⟨upsert_get_batch keys m d rssid rowid hk,
   upsert_deletes_batch keys m d rssid rowid hk,
   upsert_deletes_size keys m d rssid rowid hk,
   by decide⟩

/-- Witness for `upsert_spec`: key 7 mapped to (5,1), upserted at (6,0). -/
theorem upsert_spec_witness :
    indexGet (upsert 6 0 [7] [(7, ⟨5, 1⟩)] []).1 7 = some ⟨6, 0⟩ ∧
    (1 : Nat) ∈ deletesGet (upsert 6 0 [7] [(7, ⟨5, 1⟩)] []).2 5 ∧
    deletesSize (upsert 6 0 [7] [(7, ⟨5, 1⟩)] []).2 = 1 := by
  have h := upsert_spec [(7, ⟨5, 1⟩)] [] 6 0 [7] (by decide)
  refine ⟨?_, ?_, ?_⟩
  · have h1 := h.1 0 (by decide)
    simpa using h1
  · have h2 := h.2.1 0 (by decide) ⟨5, 1⟩ (by decide)
    simpa using h2
  · rw [h.2.2.1]
    decide

end PrimaryIndexModel

namespace PrimaryIndexModel

/-- `tryReplace` over a batch not containing a key leaves that key's lookup
unchanged. -/
theorem tryReplace_get_notMem (ks : List PKey) (srcs : List Nat) (m : IndexMap)
    (f : List Nat) (rssid rowid : Nat) (k : PKey) (hk : k ∉ ks) :
    indexGet (tryReplace rssid rowid ks srcs m f).1 k = indexGet m k := by
  induction ks generalizing m f rowid with
  | nil => simp [tryReplace]
  | cons k1 tl ih =>
      have hne : k ≠ k1 := fun hc => hk (hc ▸ List.mem_cons_self k1 tl)
      have htl : k ∉ tl := fun hc => hk (List.mem_cons_of_mem k1 hc)
      cases hg : indexGet m k1 with
      | some old =>
          by_cases hm : old.rssid ∈ srcs
          · simp only [tryReplace, hg, if_pos hm]
            rw [ih _ _ _ htl, indexGet_update_ne m k1 k _ hne]
          · simp only [tryReplace, hg, if_neg hm]
            rw [ih _ _ _ htl]
      | none =>
          simp only [tryReplace, hg]
          rw [ih _ _ _ htl]

/-- `replaceOk` depends only on the key's lookup result. -/
theorem replaceOk_congr (m1 m : IndexMap) (srcs : List Nat) (k : PKey)
    (h : indexGet m1 k = indexGet m k) :
    replaceOk m1 srcs k = replaceOk m srcs k := by
  unfold replaceOk
  rw [h]

/-- The expected failed-offset list depends only on the lookups of the batch
keys. -/
theorem expectedFailed_congr (ks : List PKey) (srcs : List Nat)
    (m1 m : IndexMap) (rowid : Nat)
    (h : ∀ k ∈ ks, indexGet m1 k = indexGet m k) :
    expectedFailed m1 srcs rowid ks = expectedFailed m srcs rowid ks := by
  induction ks generalizing rowid with
  | nil => rfl
  | cons k1 tl ih =>
      have h1 := replaceOk_congr m1 m srcs k1 (h k1 (List.mem_cons_self k1 tl))
      have htl : ∀ k ∈ tl, indexGet m1 k = indexGet m k :=
        fun k hkm => h k (List.mem_cons_of_mem k1 hkm)
      simp only [expectedFailed, h1, ih _ htl]

/-- The failed list produced by `tryReplace` on a duplicate-free batch: the
input list followed by the output offsets of exactly the keys that are
absent or not sourced from the given segments. -/
theorem tryReplace_failed (keys : List PKey) (srcs : List Nat) (m : IndexMap)
    (f : List Nat) (rssid rowid : Nat) (hk : keys.Nodup) :
    (tryReplace rssid rowid keys srcs m f).2 =
      f ++ expectedFailed m srcs rowid keys := by
  induction keys generalizing m f rowid with
  | nil => simp [tryReplace, expectedFailed]
  | cons k1 tl ih =>
      obtain ⟨hk1, htl⟩ := List.nodup_cons.mp hk
      cases hg : indexGet m k1 with
      | some old =>
          by_cases hm : old.rssid ∈ srcs
          · have hro : replaceOk m srcs k1 = true := by simp [replaceOk, hg, hm]
            simp only [tryReplace, hg, if_pos hm]
            rw [ih _ _ _ htl]
            rw [expectedFailed_congr tl srcs _ m _ (fun k hkm =>
              indexGet_update_ne m k1 k _ (fun hc => hk1 (hc ▸ hkm)))]
            simp only [expectedFailed, hro, if_true]
          · have hro : replaceOk m srcs k1 = false := by simp [replaceOk, hg, hm]
            simp only [tryReplace, hg, if_neg hm]
            rw [ih _ _ _ htl]
            simp only [expectedFailed, hro, Bool.false_eq_true, if_false,
              List.append_assoc, List.singleton_append]
      | none =>
          have hro : replaceOk m srcs k1 = false := by simp [replaceOk, hg]
          simp only [tryReplace, hg]
          rw [ih _ _ _ htl]
          simp only [expectedFailed, hro, Bool.false_eq_true, if_false,
            List.append_assoc, List.singleton_append]

/-- After a duplicate-free `tryReplace` batch, each key whose current segment
is among the source segments is repointed to its new location. -/
theorem tryReplace_get_batch_pos (keys : List PKey) (srcs : List Nat)
    (m : IndexMap) (f : List Nat) (rssid rowid : Nat) (hk : keys.Nodup) :
    ∀ i (hi : i < keys.length), replaceOk m srcs keys[i] = true →
      indexGet (tryReplace rssid rowid keys srcs m f).1 keys[i] =
        some ⟨rssid, rowid + i⟩ := by
  induction keys generalizing m f rowid with
  | nil =>
      intro i hi
      exact absurd hi (by simp)
  | cons k1 tl ih =>
      obtain ⟨hk1, htl⟩ := List.nodup_cons.mp hk
      intro i hi hro
      cases i with
      | zero =>
          simp only [List.getElem_cons_zero, Nat.add_zero] at hro ⊢
          cases hg : indexGet m k1 with
          | some old =>
              have hm : old.rssid ∈ srcs := by
                simp [replaceOk, hg] at hro
                exact hro
              simp only [tryReplace, hg, if_pos hm]
              rw [tryReplace_get_notMem tl srcs _ _ _ _ k1 hk1]
              exact indexGet_update_self m k1 _ old hg
          | none => simp [replaceOk, hg] at hro
      | succ j =>
          have hj : j < tl.length := by simpa using hi
          have harith : rowid + 1 + j = rowid + (j + 1) := by omega
          simp only [List.getElem_cons_succ] at hro ⊢
          have hne : tl[j] ≠ k1 := by
            intro hc
            exact hk1 (hc ▸ List.getElem_mem hj)
          cases hg : indexGet m k1 with
          | some old =>
              by_cases hm : old.rssid ∈ srcs
              · have hpres : indexGet (indexUpdate m k1 ⟨rssid, rowid⟩) tl[j] =
                    indexGet m tl[j] := indexGet_update_ne m k1 _ _ hne
                simp only [tryReplace, hg, if_pos hm]
                rw [ih _ _ _ htl j hj
                  (by rw [replaceOk_congr _ m srcs _ hpres]; exact hro), harith]
              · simp only [tryReplace, hg, if_neg hm]
                rw [ih _ _ _ htl j hj hro, harith]
          | none =>
              simp only [tryReplace, hg]
              rw [ih _ _ _ htl j hj hro, harith]

/-- After a duplicate-free `tryReplace` batch, each key that is absent or not
sourced from the given segments keeps its lookup unchanged. -/
theorem tryReplace_get_batch_neg (keys : List PKey) (srcs : List Nat)
    (m : IndexMap) (f : List Nat) (rssid rowid : Nat) (hk : keys.Nodup) :
    ∀ i (hi : i < keys.length), replaceOk m srcs keys[i] = false →
      indexGet (tryReplace rssid rowid keys srcs m f).1 keys[i] =
        indexGet m keys[i] := by
  induction keys generalizing m f rowid with
  | nil =>
      intro i hi
      exact absurd hi (by simp)
  | cons k1 tl ih =>
      obtain ⟨hk1, htl⟩ := List.nodup_cons.mp hk
      intro i hi hro
      cases i with
      | zero =>
          simp only [List.getElem_cons_zero] at hro ⊢
          cases hg : indexGet m k1 with
          | some old =>
              have hm : old.rssid ∉ srcs := by
                simp [replaceOk, hg] at hro
                exact hro
              simp only [tryReplace, hg, if_neg hm]
              rw [tryReplace_get_notMem tl srcs _ _ _ _ k1 hk1]
              exact hg
          | none =>
              simp only [tryReplace, hg]
              rw [tryReplace_get_notMem tl srcs _ _ _ _ k1 hk1]
              exact hg
      | succ j =>
          have hj : j < tl.length := by simpa using hi
          simp only [List.getElem_cons_succ] at hro ⊢
          have hne : tl[j] ≠ k1 := by
            intro hc
            exact hk1 (hc ▸ List.getElem_mem hj)
          cases hg : indexGet m k1 with
          | some old =>
              by_cases hm : old.rssid ∈ srcs
              · have hpres : indexGet (indexUpdate m k1 ⟨rssid, rowid⟩) tl[j] =
                    indexGet m tl[j] := indexGet_update_ne m k1 _ _ hne
                simp only [tryReplace, hg, if_pos hm]
                rw [ih _ _ _ htl j hj
                  (by rw [replaceOk_congr _ m srcs _ hpres]; exact hro), hpres]
              · simp only [tryReplace, hg, if_neg hm]
                rw [ih _ _ _ htl j hj hro]
          | none =>
              simp only [tryReplace, hg]
              rw [ih _ _ _ htl j hj hro]

/-- C2: for every key of a duplicate-free batch given to `try_replace`: if
the key's current location's segment id is a member of the source segments,
the entry is repointed to `(segment, row_offset_start + i)` and nothing is
added to the failed list for it; otherwise (key absent, or current segment
not a source segment) the output offset `row_offset_start + i` is appended to
the failed list and the key's entry is left unchanged.  The failed list is
exactly the input list followed by the offsets of the non-replaceable keys,
so the call always completes even when some keys fail.  In particular, a key
at (6,0) is repointed to (7,0) with an empty failed list when segment 6 is a
source segment, and the same call on an index where the key was erased leaves
the index unchanged and the failed list holding offset 0. -/
theorem try_replace_spec (m : IndexMap) (failed : List Nat) (rssid rowid : Nat)
    (keys : List PKey) (srcs : List Nat) (hk : keys.Nodup) :
    (∀ i (hi : i < keys.length), replaceOk m srcs keys[i] = true →
        indexGet (tryReplace rssid rowid keys srcs m failed).1 keys[i] =
          some ⟨rssid, rowid + i⟩) ∧
    (∀ i (hi : i < keys.length), replaceOk m srcs keys[i] = false →
        indexGet (tryReplace rssid rowid keys srcs m failed).1 keys[i] =
          indexGet m keys[i]) ∧
    (tryReplace rssid rowid keys srcs m failed).2 =
      failed ++ expectedFailed m srcs rowid keys ∧
    tryReplace 7 0 [11] [5, 6] [(11, ⟨6, 0⟩)] [] = ([(11, ⟨7, 0⟩)], []) ∧
    tryReplace 7 0 [11] [5, 6] [] [] = ([], [0]) :=
  ⟨tryReplace_get_batch_pos keys srcs m failed rssid rowid hk,
   tryReplace_get_batch_neg keys srcs m failed rssid rowid hk,
   tryReplace_failed keys srcs m failed rssid rowid hk,
   by decide, by decide⟩

/-- Witness for `try_replace_spec`: compaction of segments 5 and 6 into
segment 7, with the key present at (6,0) in one call and erased in the
other. -/
theorem try_replace_spec_witness :
    indexGet (tryReplace 7 0 [11] [5, 6] [(11, ⟨6, 0⟩)] []).1 11 = some ⟨7, 0⟩ ∧
    (tryReplace 7 0 [11] [5, 6] [] []).2 = [0] ∧
    indexGet (tryReplace 7 0 [11] [5, 6] [] []).1 11 = none := by
  have h1 := try_replace_spec [(11, ⟨6, 0⟩)] [] 7 0 [11] [5, 6] (by decide)
  have h2 := try_replace_spec [] [] 7 0 [11] [5, 6] (by decide)
  refine ⟨?_, ?_, ?_⟩
  · have hp := h1.1 0 (by decide) (by decide)
    simpa using hp
  · rw [h2.2.2.1]
    decide
  · have hn := h2.2.1 0 (by decide) (by decide)
    simpa using hn

end PrimaryIndexModel

namespace PrimaryIndexModel

/-- A key is looked up to `none` exactly when it is not among the map's
keys. -/
theorem indexGet_eq_none_iff (m : IndexMap) (k : PKey) :
    indexGet m k = none ↔ k ∉ m.map Prod.fst := by
  induction m with
  | nil => simp [indexGet]
  | cons hd tl ih =>
      obtain ⟨k1, loc1⟩ := hd
      by_cases hk : k1 = k
      · simp [indexGet, hk]
      · have hne : ¬(k = k1) := fun hc => hk hc.symm
        simp [indexGet, hk, ih, hne]

/-- Erasing one key leaves lookups of every other key unchanged. -/
theorem indexGet_erase_ne (m : IndexMap) (k k1 : PKey) (h : k1 ≠ k) :
    indexGet (indexErase m k) k1 = indexGet m k1 := by
  induction m with
  | nil => simp [indexErase]
  | cons hd tl ih =>
      obtain ⟨k2, loc2⟩ := hd
      by_cases hk : k2 = k
      · subst hk
        have hne : ¬(k2 = k1) := fun hc => h hc.symm
        simp [indexErase, indexGet, hne]
      · simp only [indexErase, if_neg hk, indexGet]
        by_cases hk1 : k2 = k1
        · simp [hk1]
        · simp [hk1, ih]

/-- Erasing an absent key is the identity on the map. -/
theorem indexErase_of_none (m : IndexMap) (k : PKey)
    (h : indexGet m k = none) : indexErase m k = m := by
  induction m with
  | nil => rfl
  | cons hd tl ih =>
      obtain ⟨k1, loc1⟩ := hd
      by_cases hk : k1 = k
      · simp [indexGet, hk] at h
      · simp only [indexGet, if_neg hk] at h
        simp [indexErase, hk, ih h]

/-- On a map with duplicate-free keys, erasing a key makes its lookup return
`none`. -/
theorem indexGet_erase_self (m : IndexMap) (k : PKey)
    (hm : (m.map Prod.fst).Nodup) :
    indexGet (indexErase m k) k = none := by
  induction m with
  | nil => simp [indexErase, indexGet]
  | cons hd tl ih =>
      obtain ⟨k1, loc1⟩ := hd
      simp only [List.map_cons, List.nodup_cons] at hm
      obtain ⟨hk1, htl⟩ := hm
      by_cases hk : k1 = k
      · subst hk
        simp only [indexErase, if_pos rfl]
        exact (indexGet_eq_none_iff tl k1).mpr hk1
      · simp only [indexErase, if_neg hk, indexGet, if_neg hk]
        exact ih htl

/-- The erased map is a sublist of the original. -/
theorem indexErase_sublist (m : IndexMap) (k : PKey) :
    List.Sublist (indexErase m k) m := by
  induction m with
  | nil => simp [indexErase]
  | cons hd tl ih =>
      obtain ⟨k1, loc1⟩ := hd
      by_cases hk : k1 = k
      · simp only [indexErase, if_pos hk]
        exact List.sublist_cons_self (k1, loc1) tl
      · simp only [indexErase, if_neg hk]
        exact List.Sublist.cons₂ (k1, loc1) ih

/-- Erasing preserves duplicate-freeness of the map's keys. -/
theorem indexErase_nodup (m : IndexMap) (k : PKey)
    (hm : (m.map Prod.fst).Nodup) :
    ((indexErase m k).map Prod.fst).Nodup :=
  hm.sublist (List.Sublist.map Prod.fst (indexErase_sublist m k))

/-- A key already looked up to `none` stays at `none` through an `erase`
batch: `erase` never adds entries. -/
theorem erase_get_none (ks : List PKey) (m : IndexMap) (d : DeletesMap)
    (k : PKey) (h : indexGet m k = none) :
    indexGet (erase ks m d).1 k = none := by
  induction ks generalizing m d with
  | nil => simpa [erase] using h
  | cons k1 tl ih =>
      cases hg : indexGet m k1 with
      | some old =>
          have hne : k ≠ k1 := by
            intro hc
            rw [hc, hg] at h
            exact Option.noConfusion h
          simp only [erase, hg]
          exact ih _ _ ((indexGet_erase_ne m k1 k hne).trans h)
      | none =>
          simp only [erase, hg]
          exact ih _ _ h

/-- `erase` over a batch not containing a key leaves that key's lookup
unchanged. -/
theorem erase_get_notMem (ks : List PKey) (m : IndexMap) (d : DeletesMap)
    (k : PKey) (hk : k ∉ ks) :
    indexGet (erase ks m d).1 k = indexGet m k := by
  induction ks generalizing m d with
  | nil => simp [erase]
  | cons k1 tl ih =>
      have hne : k ≠ k1 := fun hc => hk (hc ▸ List.mem_cons_self k1 tl)
      have htl : k ∉ tl := fun hc => hk (List.mem_cons_of_mem k1 hc)
      cases hg : indexGet m k1 with
      | some old =>
          simp only [erase, hg]
          rw [ih _ _ htl, indexGet_erase_ne m k1 k hne]
      | none =>
          simp only [erase, hg]
          exact ih _ _ htl

/-- Offsets recorded in the deletes map survive an `erase` batch. -/
theorem erase_deletes_mono (ks : List PKey) (m : IndexMap) (d : DeletesMap)
    (s r : Nat) (h : r ∈ deletesGet d s) :
    r ∈ deletesGet (erase ks m d).2 s := by
  induction ks generalizing m d with
  | nil => simpa [erase] using h
  | cons k1 tl ih =>
      cases hg : indexGet m k1 with
      | some old =>
          simp only [erase, hg]
          exact ih _ _ (mem_deletesGet_add d _ s _ r h)
      | none =>
          simp only [erase, hg]
          exact ih _ _ h

/-- After an `erase` batch on a duplicate-free map, every erased key looks up
to `none`. -/
theorem erase_get_batch (keys : List PKey) (m : IndexMap) (d : DeletesMap)
    (hm : (m.map Prod.fst).Nodup) :
    ∀ k ∈ keys, indexGet (erase keys m d).1 k = none := by
  induction keys generalizing m d with
  | nil => simp
  | cons k1 tl ih =>
      intro k hmem
      rcases List.mem_cons.mp hmem with hhead | htail
      · subst hhead
        cases hg : indexGet m k with
        | some old =>
            simp only [erase, hg]
            exact erase_get_none tl _ _ k (indexGet_erase_self m k hm)
        | none =>
            simp only [erase, hg]
            exact erase_get_none tl _ _ k hg
      · cases hg : indexGet m k1 with
        | some old =>
            simp only [erase, hg]
            exact ih _ _ (indexErase_nodup m k1 hm) k htail
        | none =>
            simp only [erase, hg]
            exact ih _ _ hm k htail

/-- After a duplicate-free `erase` batch, the prior location of each erased
key that was present is recorded in the deletes map under its segment id. -/
theorem erase_deletes_batch (keys : List PKey) (m : IndexMap) (d : DeletesMap)
    (hk : keys.Nodup) :
    ∀ k ∈ keys, ∀ old, indexGet m k = some old →
      old.rowid ∈ deletesGet (erase keys m d).2 old.rssid := by
  induction keys generalizing m d with
  | nil => simp
  | cons k1 tl ih =>
      obtain ⟨hk1, htl⟩ := List.nodup_cons.mp hk
      intro k hmem old hold
      rcases List.mem_cons.mp hmem with hhead | htail
      · subst hhead
        simp only [erase, hold]
        exact erase_deletes_mono tl _ _ _ _
          (self_mem_deletesGet_add d old.rssid old.rowid)
      · have hne : k ≠ k1 := fun hc => hk1 (hc ▸ htail)
        cases hg : indexGet m k1 with
        | some o1 =>
            simp only [erase, hg]
            exact ih _ _ htl k htail old
              ((indexGet_erase_ne m k1 k hne).trans hold)
        | none =>
            simp only [erase, hg]
            exact ih _ _ htl k htail old hold

/-- `erase` on a duplicate-free batch records exactly one deletes entry per
present key and none for an absent key. -/
theorem erase_deletes_size (keys : List PKey) (m : IndexMap) (d : DeletesMap)
    (hk : keys.Nodup) :
    deletesSize (erase keys m d).2 =
      deletesSize d + keys.countP (fun k => (indexGet m k).isSome) := by
  induction keys generalizing m d with
  | nil => simp [erase]
  | cons k1 tl ih =>
      obtain ⟨hk1, htl⟩ := List.nodup_cons.mp hk
      have hcount : ∀ (m1 : IndexMap), (∀ k ∈ tl, indexGet m1 k = indexGet m k) →
          tl.countP (fun k => (indexGet m1 k).isSome) =
            tl.countP (fun k => (indexGet m k).isSome) :=
        fun m1 hsame => List.countP_congr (fun a ha => by rw [hsame a ha])
      cases hg : indexGet m k1 with
      | some old =>
          simp only [erase, hg]
          rw [ih _ _ htl, deletesSize_add]
          rw [hcount _ (fun k hmem =>
            indexGet_erase_ne m k1 k (fun hc => hk1 (hc ▸ hmem)))]
          rw [List.countP_cons_of_pos _ _ (by simp [hg])]
          omega
      | none =>
          simp only [erase, hg]
          rw [ih _ _ htl]
          rw [List.countP_cons_of_neg _ _ (by simp [hg])]

/-- C5: for every key of a duplicate-free batch given to `erase` on a
duplicate-free index map: a present key is removed (its subsequent lookup is
the not-found `none`) and its prior location is appended to the deletes map;
an absent key is a no-op that fails nothing and adds nothing (the deletes map
grows by exactly one offset per present key and none for an absent one).  In
particular, erasing a key mapped to (5,1) leaves the map empty and yields a
deletes map with offset 1 recorded under segment 5. -/
theorem erase_spec (m : IndexMap) (d : DeletesMap) (keys : List PKey)
    (hm : (m.map Prod.fst).Nodup) (hk : keys.Nodup) :
    (∀ k ∈ keys, indexGet (erase keys m d).1 k = none) ∧
    (∀ k ∈ keys, ∀ old, indexGet m k = some old →
        old.rowid ∈ deletesGet (erase keys m d).2 old.rssid) ∧
    deletesSize (erase keys m d).2 =
      deletesSize d + keys.countP (fun k => (indexGet m k).isSome) ∧
    erase [9] [(9, ⟨5, 1⟩)] [] = ([], [(5, [1])]) :=
  ⟨erase_get_batch keys m d hm,
   erase_deletes_batch keys m d hk,
   erase_deletes_size keys m d hk,
   by decide⟩

/-- Witness for `erase_spec`: erasing key 9 mapped to (5,1), and erasing the
absent key 3 from an empty map. -/
theorem erase_spec_witness :
    indexGet (erase [9] [(9, ⟨5, 1⟩)] []).1 9 = none ∧
    (1 : Nat) ∈ deletesGet (erase [9] [(9, ⟨5, 1⟩)] []).2 5 ∧
    deletesSize (erase [3] [] []).2 = 0 := by
  have h1 := erase_spec [(9, ⟨5, 1⟩)] [] [9] (by decide) (by decide)
  have h2 := erase_spec [] [] [3] (by decide) (by decide)
  refine ⟨?_, ?_, ?_⟩
  · exact h1.1 9 (by decide)
  · have hh := h1.2.1 9 (by decide) ⟨5, 1⟩ (by decide)
    simpa using hh
  · rw [h2.2.2.1]
    decide

end PrimaryIndexModel

namespace PrimaryIndexModel

/-- A successful segment scan appends exactly the segment's live entries. -/
theorem loadSegmentRows_ok (rows : List (Option PKey)) (rssid rowid : Nat)
    (delvec : List Nat) (m0 m1 : IndexMap)
    (h : loadSegmentRows rssid rowid rows delvec m0 = .ok m1) :
    m1 = m0 ++ segmentEntries rssid rowid rows delvec := by
  induction rows generalizing rowid m0 with
  | nil =>
      simp only [loadSegmentRows, Except.ok.injEq] at h
      simp [segmentEntries, ← h]
  | cons r rest ih =>
      cases r with
      | none => simp [loadSegmentRows] at h
      | some k =>
          by_cases hd : rowid ∈ delvec
          · simp only [loadSegmentRows, if_pos hd] at h
            simp only [segmentEntries, if_pos hd]
            exact ih _ _ h
          · simp only [loadSegmentRows, if_neg hd] at h
            simp only [segmentEntries, if_neg hd]
            rw [ih _ _ h]
            simp

/-- A successful rowset scan appends exactly its segments' live entries. -/
theorem loadSegments_ok (segs : List Segment) (m0 m1 : IndexMap)
    (h : loadSegments segs m0 = .ok m1) :
    m1 = m0 ++
      (segs.map (fun s => segmentEntries s.rssid 0 s.rows s.delvec)).flatten := by
  induction segs generalizing m0 with
  | nil =>
      simp only [loadSegments, Except.ok.injEq] at h
      simp [← h]
  | cons s rest ih =>
      cases hr : loadSegmentRows s.rssid 0 s.rows s.delvec m0 with
      | ok m2 =>
          simp only [loadSegments, hr] at h
          rw [ih _ h, loadSegmentRows_ok s.rows s.rssid 0 s.delvec m0 m2 hr]
          simp [List.append_assoc]
      | error e => simp [loadSegments, hr] at h

/-- A successful full scan produces exactly the tablet's live entries, in
scan order, appended to the initial map. -/
theorem loadRowsets_ok (rss : List Rowset) (m0 m1 : IndexMap)
    (h : loadRowsets rss m0 = .ok m1) :
    m1 = m0 ++ (rss.map (fun r => (r.segments.map
      (fun s => segmentEntries s.rssid 0 s.rows s.delvec)).flatten)).flatten := by
  induction rss generalizing m0 with
  | nil =>
      simp only [loadRowsets, Except.ok.injEq] at h
      simp [← h]
  | cons r rest ih =>
      by_cases hm : r.metaOk
      · cases hs : loadSegments r.segments m0 with
        | ok m2 =>
            simp only [loadRowsets, if_pos hm, hs] at h
            rw [ih _ h, loadSegments_ok r.segments m0 m2 hs]
            simp [List.append_assoc]
        | error e => simp [loadRowsets, if_pos hm, hs] at h
      · simp [loadRowsets, hm] at h

/-- On a map with duplicate-free keys, every entry is returned by lookup. -/
theorem indexGet_mem_of_nodup (m : IndexMap) (k : PKey) (loc : RowLocation)
    (hm : (m.map Prod.fst).Nodup) (hmem : (k, loc) ∈ m) :
    indexGet m k = some loc := by
  induction m with
  | nil => simp at hmem
  | cons hd tl ih =>
      obtain ⟨k1, loc1⟩ := hd
      simp only [List.map_cons, List.nodup_cons] at hm
      obtain ⟨hk1, htl⟩ := hm
      rcases List.mem_cons.mp hmem with hhead | htail
      · injection hhead with h1 h2
        subst h1
        subst h2
        simp [indexGet]
      · have hkmem : k ∈ tl.map Prod.fst := by
          exact List.mem_map_of_mem Prod.fst htail
        have hne : ¬(k1 = k) := fun hc => hk1 (hc ▸ hkmem)
        simp only [indexGet, if_neg hne]
        exact ih htl htail

/-- Every successful lookup corresponds to an entry of the map. -/
theorem mem_of_indexGet_some (m : IndexMap) (k : PKey) (loc : RowLocation)
    (h : indexGet m k = some loc) : (k, loc) ∈ m := by
  induction m with
  | nil => simp [indexGet] at h
  | cons hd tl ih =>
      obtain ⟨k1, loc1⟩ := hd
      by_cases hk : k1 = k
      · subst hk
        simp only [indexGet, eq_self_iff_true, if_true, Option.some.injEq] at h
        subst h
        exact List.mem_cons_self _ _
      · simp only [indexGet, if_neg hk] at h
        exact List.mem_cons_of_mem _ (ih h)

/-- A key-decode failure anywhere in a segment aborts its scan with an
error. -/
theorem loadSegmentRows_error (rows : List (Option PKey)) (rssid : Nat)
    (delvec : List Nat) (h : none ∈ rows) :
    ∀ (rowid : Nat) (m0 : IndexMap),
      loadSegmentRows rssid rowid rows delvec m0 = .error () := by
  induction rows with
  | nil => simp at h
  | cons r rest ih =>
      intro rowid m0
      cases r with
      | none => simp [loadSegmentRows]
      | some k =>
          have hrest : none ∈ rest := by
            rcases List.mem_cons.mp h with hh | ht
            · exact absurd hh (by simp)
            · exact ht
          by_cases hd : rowid ∈ delvec
          · simp only [loadSegmentRows, if_pos hd]
            exact ih hrest _ _
          · simp only [loadSegmentRows, if_neg hd]
            exact ih hrest _ _

/-- A key-decode failure in any segment aborts the rowset scan. -/
theorem loadSegments_error (segs : List Segment)
    (h : ∃ s ∈ segs, none ∈ s.rows) :
    ∀ (m0 : IndexMap), loadSegments segs m0 = .error () := by
  induction segs with
  | nil => simp at h
  | cons s rest ih =>
      intro m0
      rcases h with ⟨s1, hs1, hrows⟩
      rcases List.mem_cons.mp hs1 with hh | ht
      · subst hh
        simp [loadSegments, loadSegmentRows_error s1.rows s1.rssid s1.delvec hrows 0 m0]
      · cases hr : loadSegmentRows s.rssid 0 s.rows s.delvec m0 with
        | ok m2 =>
            simp only [loadSegments, hr]
            exact ih ⟨s1, ht, hrows⟩ m2
        | error e =>
            cases e
            simp [loadSegments, hr]

/-- Any unreadable rowset metadata or key-decode failure aborts the full
scan with an error. -/
theorem loadRowsets_error (rss : List Rowset)
    (h : (∃ r ∈ rss, r.metaOk = false) ∨
      (∃ r ∈ rss, ∃ s ∈ r.segments, none ∈ s.rows)) :
    ∀ (m0 : IndexMap), loadRowsets rss m0 = .error () := by
  induction rss with
  | nil => simp at h
  | cons r rest ih =>
      intro m0
      by_cases hm : r.metaOk
      · cases hs : loadSegments r.segments m0 with
        | ok m2 =>
            simp only [loadRowsets, if_pos hm, hs]
            apply ih _ m2
            rcases h with ⟨r1, hr1, hmf⟩ | ⟨r1, hr1, hseg⟩
            · rcases List.mem_cons.mp hr1 with hh | ht
              · subst hh
                rw [hmf] at hm
                exact absurd hm (by simp)
              · exact Or.inl ⟨r1, ht, hmf⟩
            · rcases List.mem_cons.mp hr1 with hh | ht
              · subst hh
                rw [loadSegments_error r1.segments hseg m0] at hs
                exact absurd hs (by simp)
              · exact Or.inr ⟨r1, ht, hseg⟩
        | error e =>
            cases e
            simp [loadRowsets, if_pos hm, hs]
      · simp [loadRowsets, hm]

/-- C4: after a successful `load` of a tablet whose live rows carry distinct
keys, `get` returns for every loaded key exactly the (segment, row offset)
location recorded in storage; for every key not recorded, the lookup is the
not-found sentinel `none` rather than a call failure; and everything in the
index comes from a live row, so rows already marked deleted in their
segment's delete vector were not inserted. -/
theorem load_get_spec (t : Tablet) (p1 : PrimaryIndex)
    (h : load emptyIndex t = (p1, Status.OK))
    (hnd : ((tabletEntries t).map Prod.fst).Nodup) :
    (∀ k loc, (k, loc) ∈ tabletEntries t → indexGet p1.map k = some loc) ∧
    (∀ k, k ∉ (tabletEntries t).map Prod.fst → indexGet p1.map k = none) ∧
    (∀ k loc, indexGet p1.map k = some loc → (k, loc) ∈ tabletEntries t) := by
  cases hr : loadRowsets t.rowsets [] with
  | ok m =>
      have h1 : load emptyIndex t = (⟨true, Status.OK, m⟩, Status.OK) := by
        simp [load, emptyIndex, hr]
      rw [h1] at h
      injection h with h2 h3
      have hm : m = tabletEntries t := by
        have hh := loadRowsets_ok t.rowsets [] m hr
        simpa [tabletEntries] using hh
      have hmap : p1.map = tabletEntries t := by
        rw [← h2, ← hm]
      refine ⟨?_, ?_, ?_⟩
      · intro k loc hmem
        rw [hmap]
        exact indexGet_mem_of_nodup _ k loc hnd hmem
      · intro k hnmem
        rw [hmap]
        exact (indexGet_eq_none_iff _ k).mpr hnmem
      · intro k loc hsome
        rw [hmap] at hsome
        exact mem_of_indexGet_some _ k loc hsome
  | error e =>
      cases e
      have h1 : load emptyIndex t =
          (⟨false, Status.IndexLoadError, []⟩, Status.IndexLoadError) := by
        simp [load, emptyIndex, hr]
      rw [h1] at h
      injection h with h2 h3
      exact absurd h3 (by decide)

/-- Witness for `load_get_spec`: one rowset with one segment (id 1) holding
keys 10, 11, 12 at offsets 0, 1, 2, offset 1 already marked deleted. -/
theorem load_get_spec_witness :
    indexGet (load emptyIndex
        ⟨[⟨true, [⟨1, [some 10, some 11, some 12], [1]⟩]⟩]⟩).1.map 10 =
      some ⟨1, 0⟩ ∧
    indexGet (load emptyIndex
        ⟨[⟨true, [⟨1, [some 10, some 11, some 12], [1]⟩]⟩]⟩).1.map 11 = none ∧
    indexGet (load emptyIndex
        ⟨[⟨true, [⟨1, [some 10, some 11, some 12], [1]⟩]⟩]⟩).1.map 12 =
      some ⟨1, 2⟩ := by
  have h := load_get_spec ⟨[⟨true, [⟨1, [some 10, some 11, some 12], [1]⟩]⟩]⟩
    (load emptyIndex ⟨[⟨true, [⟨1, [some 10, some 11, some 12], [1]⟩]⟩]⟩).1
    (by decide) (by decide)
  exact ⟨h.1 10 ⟨1, 0⟩ (by decide), h.2.1 11 (by decide), h.1 12 ⟨1, 2⟩ (by decide)⟩

/-- C7: `load` is idempotent while loaded: once a `load` has succeeded, a
second `load` (of any tablet input) without an intervening `unload` is a
no-op returning the cached OK status and leaving the key-to-location map,
and hence every lookup, exactly as after the first load. -/
theorem load_idempotent (p : PrimaryIndex) (t t2 : Tablet)
    (h : (load p t).2 = Status.OK) :
    load (load p t).1 t2 = ((load p t).1, Status.OK) ∧
    ∀ k, indexGet (load (load p t).1 t2).1.map k = indexGet (load p t).1.map k := by
  by_cases hp : p.loaded
  · have h1 : load p t = (p, p.status) := by simp [load, hp]
    rw [h1] at h
    simp only at h
    constructor
    · simp [load, hp, h]
    · intro k
      simp [load, hp]
  · cases hr : loadRowsets t.rowsets [] with
    | ok m =>
        have h1 : load p t = (⟨true, Status.OK, m⟩, Status.OK) := by
          simp [load, hp, hr]
        rw [h1]
        constructor
        · simp [load]
        · intro k
          simp [load]
    | error e =>
        cases e
        have h1 : load p t =
            (⟨false, Status.IndexLoadError, []⟩, Status.IndexLoadError) := by
          simp [load, hp, hr]
        rw [h1] at h
        exact absurd h (by decide)

/-- Witness for `load_idempotent`: a successfully loaded one-row tablet,
reloaded with the same input. -/
theorem load_idempotent_witness :
    load (load emptyIndex ⟨[⟨true, [⟨1, [some 10], []⟩]⟩]⟩).1
        ⟨[⟨true, [⟨1, [some 10], []⟩]⟩]⟩ =
      ((load emptyIndex ⟨[⟨true, [⟨1, [some 10], []⟩]⟩]⟩).1, Status.OK) :=
  (load_idempotent emptyIndex ⟨[⟨true, [⟨1, [some 10], []⟩]⟩]⟩
    ⟨[⟨true, [⟨1, [some 10], []⟩]⟩]⟩ (by decide)).1

/-- C8: `load` is atomic on failure: on a tablet input with an unreadable
rowset metadata or a row whose key fails to decode, `load` of an unloaded
index returns the `IndexLoadError` status and leaves the index unloaded with
an empty map — no partial mapping is visible. -/
theorem load_failure_atomic (p : PrimaryIndex) (t : Tablet)
    (hb : tabletBad t) (hl : p.loaded = false) :
    load p t = (⟨false, Status.IndexLoadError, []⟩, Status.IndexLoadError) := by
  have herr : loadRowsets t.rowsets [] = .error () :=
    loadRowsets_error t.rowsets hb []
  simp [load, hl, herr]

/-- Witness for `load_failure_atomic`: a tablet whose only rowset has
unreadable metadata, loaded into a fresh index. -/
theorem load_failure_atomic_witness :
    load emptyIndex ⟨[⟨false, []⟩]⟩ =
      (⟨false, Status.IndexLoadError, []⟩, Status.IndexLoadError) :=
  load_failure_atomic emptyIndex ⟨[⟨false, []⟩]⟩
    (Or.inl ⟨⟨false, []⟩, by simp, rfl⟩) rfl

end PrimaryIndexModel

namespace SnapshotModel

/-- Decoding inverts the snapshot-type wire encoding. -/
theorem ofInt_toInt (ty : SnapshotTypePB) :
    SnapshotTypePB.ofInt ty.toInt = some ty := by
  cases ty <;> rfl

/-- Reading back exactly the words just written splits the stream at the
write boundary. -/
theorem readN_append (l r : List Int) : readN l.length (l ++ r) = .ok (l, r) := by
  induction l with
  | nil => rfl
  | cons x tl ih => simp [readN, ih]

/-- Reading a length-prefixed record recovers it and the remaining stream. -/
theorem readBlob_encode (b r : List Int) :
    readBlob (encodeBlob b ++ r) = .ok (b, r) := by
  have h1 : ¬((b.length : Int) < 0) := not_lt.mpr (Int.natCast_nonneg _)
  simp only [encodeBlob, List.cons_append, readBlob, if_neg h1, Int.toNat_natCast]
  exact readN_append b r

/-- Reading back a count of length-prefixed records recovers them in order. -/
theorem readBlobs_encode (bs : List (List Int)) (r : List Int) :
    readBlobs bs.length ((bs.map encodeBlob).flatten ++ r) = .ok (bs, r) := by
  induction bs generalizing r with
  | nil => rfl
  | cons b tl ih =>
      show readBlobs (tl.length + 1)
        ((encodeBlob b ++ (tl.map encodeBlob).flatten) ++ r) = _
      rw [List.append_assoc]
      simp only [readBlobs, readBlob_encode b ((tl.map encodeBlob).flatten ++ r),
        ih r]

/-- Reading one (segment id, delete vector) pair recovers it. -/
theorem readDelVec_encode (p : Nat × DelVector) (r : List Int) :
    readDelVec (encodeDelVec p ++ r) = .ok (p, r) := by
  obtain ⟨v, b⟩ := p
  have h1 : ¬((v : Int) < 0) := not_lt.mpr (Int.natCast_nonneg _)
  simp only [encodeDelVec, List.cons_append, readDelVec, if_neg h1,
    readBlob_encode b r, Int.toNat_natCast]

/-- Reading back a count of (segment id, delete vector) pairs recovers them
in order. -/
theorem readDelVecs_encode (ds : List (Nat × DelVector)) (r : List Int) :
    readDelVecs ds.length ((ds.map encodeDelVec).flatten ++ r) = .ok (ds, r) := by
  induction ds generalizing r with
  | nil => rfl
  | cons p tl ih =>
      show readDelVecs (tl.length + 1)
        ((encodeDelVec p ++ (tl.map encodeDelVec).flatten) ++ r) = _
      rw [List.append_assoc]
      simp only [readDelVecs, readDelVec_encode p ((tl.map encodeDelVec).flatten ++ r),
        ih r]

/-- C3: for every `SnapshotMeta` whose snapshot type, format version and
snapshot version hold non-sentinel values, parsing the stream produced by
`serialize_to_file` yields an object equal to the original field for field:
snapshot type, format version, snapshot version, tablet metadata, rowset
metadata list in order, and the segment-id-to-delete-vector map. -/
theorem snapshot_round_trip (x : SnapshotMeta)
    (ht : x.snapshot_type ≠ SnapshotTypePB.SNAPSHOT_TYPE_UNKNOWN)
    (hf : x.format_version ≠ -1) (hv : x.snapshot_version ≠ -1) :
    (serialize_to_file x).bind parse_from_file = Except.ok x := by
  obtain ⟨ty, f, v, tm, rms, dvs⟩ := x
  simp only at hf hv
  have hcond : ¬(f = -1 ∨ v = -1) := by
    intro hc
    rcases hc with hc | hc
    · exact hf hc
    · exact hv hc
  simp only [serialize_to_file, if_neg hcond, Except.bind]
  rw [List.append_assoc]
  simp only [parse_from_file, ofInt_toInt, readBlob_encode]
  simp only [encodeBlobList, List.cons_append,
    if_neg (not_lt.mpr (Int.natCast_nonneg rms.length)), Int.toNat_natCast,
    readBlobs_encode]
  simp only [encodeDelVecs,
    if_neg (not_lt.mpr (Int.natCast_nonneg dvs.length)), Int.toNat_natCast]
  rw [show (dvs.map encodeDelVec).flatten =
    (dvs.map encodeDelVec).flatten ++ [] from (List.append_nil _).symm]
  simp only [readDelVecs_encode]

/-- Witness for `snapshot_round_trip`: a full snapshot with format version 1,
snapshot version 4, tablet metadata, one rowset metadata record and one
delete vector for segment 9. -/
theorem snapshot_round_trip_witness :
    (serialize_to_file
        ⟨.SNAPSHOT_TYPE_FULL, 1, 4, [7], [[3]], [(9, [1, 2])]⟩).bind
      parse_from_file =
      Except.ok ⟨.SNAPSHOT_TYPE_FULL, 1, 4, [7], [[3]], [(9, [1, 2])]⟩ :=
  snapshot_round_trip ⟨.SNAPSHOT_TYPE_FULL, 1, 4, [7], [[3]], [(9, [1, 2])]⟩
    (by decide) (by decide) (by decide)

/-- C6: serializing a `SnapshotMeta` whose format version or snapshot
version still holds the sentinel `-1` fails with a `SerializationError` and
produces no output stream. -/
theorem serialize_sentinel_rejected (x : SnapshotMeta)
    (h : x.format_version = -1 ∨ x.snapshot_version = -1) :
    serialize_to_file x = .error .SerializationError := by
  simp only [serialize_to_file, if_pos h]

/-- Witness for `serialize_sentinel_rejected`: the default-constructed
snapshot still holds both sentinels. -/
theorem serialize_sentinel_rejected_witness :
    serialize_to_file defaultSnapshotMeta = .error .SerializationError :=
  serialize_sentinel_rejected defaultSnapshotMeta (Or.inl rfl)

/-- C9: a default-constructed `SnapshotMeta` starts with snapshot type
`SNAPSHOT_TYPE_UNKNOWN`, format version `-1`, snapshot version `-1`, and
empty tablet metadata, rowset metadata list and delete-vector map; with both
sentinels set it is in the must-not-serialize state, so serializing it fails
with a `SerializationError`. -/
theorem default_snapshot_meta_unset :
    defaultSnapshotMeta.snapshot_type = SnapshotTypePB.SNAPSHOT_TYPE_UNKNOWN ∧
    defaultSnapshotMeta.format_version = -1 ∧
    defaultSnapshotMeta.snapshot_version = -1 ∧
    defaultSnapshotMeta.tablet_meta = [] ∧
    defaultSnapshotMeta.rowset_metas = [] ∧
    defaultSnapshotMeta.delete_vectors = [] ∧
    serialize_to_file defaultSnapshotMeta = .error .SerializationError := by
  refine ⟨rfl, rfl, rfl, rfl, rfl, rfl, ?_⟩
  simp [serialize_to_file, defaultSnapshotMeta]

end SnapshotModel

namespace TimezoneModel

/-- C10: for every timezone string of the shape sign, two digits, colon, two
digits (the offset regex), `find_cctz_time_zone` returns false exactly when
the sign is minus and the hour exceeds 12 or the sign is plus and the hour
exceeds 14; otherwise it returns true with the fixed time zone of
sign-adjusted `hour * 3600 + minute * 60` seconds, the minutes never being
range-checked.  The exact string "CST" always yields true with the fixed
+08:00 (28800 second) zone. -/
theorem find_cctz_spec (sg d1 d2 d3 d4 : Char)
    (hsg : sg = '+' ∨ sg = '-') (h1 : d1.isDigit) (h2 : d2.isDigit)
    (h3 : d3.isDigit) (h4 : d4.isDigit) :
    (find_cctz_time_zone [sg, d1, d2, ':', d3, d4] =
      if (sg = '-' ∧ twoDigit d1 d2 > 12) ∨ (sg = '+' ∧ twoDigit d1 d2 > 14)
        then TzResult.notFound
        else TzResult.fixedTz ((if sg = '-' then (-1 : Int) else 1) *
          ((twoDigit d1 d2 : Int) * 3600 + (twoDigit d3 d4 : Int) * 60))) ∧
    find_cctz_time_zone ['C', 'S', 'T'] = TzResult.fixedTz 28800 := by
  constructor
  · rcases hsg with rfl | rfl
    · have hg : ((('+' == '+') || ('+' == '-')) && d1.isDigit && d2.isDigit &&
          ((':' : Char) == ':') && d3.isDigit && d4.isDigit) = true := by
        rw [h1, h2, h3, h4]
        decide
      have hpos : ('+' : Char) ≠ '-' := by decide
      simp only [find_cctz_time_zone, hg, eq_self_iff_true, if_true]
      rw [if_neg (fun hc => hc.1 hpos)]
      by_cases hh : twoDigit d1 d2 > 14
      · rw [if_pos ⟨hpos, hh⟩, if_pos (Or.inr ⟨trivial, hh⟩)]
      · have hr : ¬((('+' : Char) = '-' ∧ twoDigit d1 d2 > 12) ∨
            (True ∧ twoDigit d1 d2 > 14)) := by
          rintro (⟨hc, _⟩ | ⟨_, hc⟩)
          · exact absurd hc (by decide)
          · exact hh hc
        rw [if_neg (fun hc => hh hc.2), if_neg hr, if_pos hpos,
          if_neg (show ¬(('+' : Char) = '-') by decide)]
    · have hg : ((('-' == '+') || ('-' == '-')) && d1.isDigit && d2.isDigit &&
          ((':' : Char) == ':') && d3.isDigit && d4.isDigit) = true := by
        rw [h1, h2, h3, h4]
        decide
      have hneg : ¬(('-' : Char) ≠ '-') := fun hc => hc rfl
      simp only [find_cctz_time_zone, hg, eq_self_iff_true, if_true]
      by_cases h12 : twoDigit d1 d2 > 12
      · rw [if_pos ⟨hneg, h12⟩, if_pos (Or.inl ⟨trivial, h12⟩)]
      · have hr : ¬((True ∧ twoDigit d1 d2 > 12) ∨
            (('-' : Char) = '+' ∧ twoDigit d1 d2 > 14)) := by
          rintro (⟨_, hc⟩ | ⟨hc, _⟩)
          · exact h12 hc
          · exact absurd hc (by decide)
        rw [if_neg (fun hc => h12 hc.2), if_neg (fun hc => hc.1 rfl),
          if_neg hr, if_neg (fun hc : ('-' : Char) ≠ '-' => hc rfl)]
  · decide

/-- Witness for `find_cctz_spec`: the offset string "+09:30" yields the fixed
zone of 34200 seconds, and "CST" yields the fixed zone of 28800 seconds. -/
theorem find_cctz_spec_witness :
    find_cctz_time_zone ['+', '0', '9', ':', '3', '0'] =
      TzResult.fixedTz 34200 ∧
    find_cctz_time_zone ['C', 'S', 'T'] = TzResult.fixedTz 28800 := by
  have h := find_cctz_spec '+' '0' '9' '3' '0' (Or.inl rfl) (by decide)
    (by decide) (by decide) (by decide)
  refine ⟨?_, h.2⟩
  rw [h.1]
  decide

end TimezoneModel
